import Mathlib

/-!
Shallow embedding of the secret sanitization / restoration subsystem of
`bin/secrets_manager.py` (classes `SecretsManager` and `SecretsSanitizer`),
together with theorems settling the spec claims about it.

Conventions of the embedding:
* Python strings are Lean `String`s; the scanning functions work on `List Char`
  (`String.data`) so that everything reduces in the kernel.
* Python dicts (`self._secrets`, `self._mapping`) are association lists with
  Python-dict update semantics (`dictInsert`: replace in place if the key is
  present, else append) and first-match lookup.
* `hashlib.sha256(value.encode()).hexdigest()[:16]` is an external library
  call; the embedding is parametric in the hash function `hash : String →
  String` (concrete theorems instantiate it with an injective function,
  idealizing the digest as collision-free, which is how the code uses it).
* `datetime.now()` is an external clock; the `created` metadata field is
  omitted because no operation of the subsystem ever reads it.
* File system and Fernet/base64 encoding are external collaborators; `save` /
  `_load_existing` are modelled over explicit file images, with the
  encode/decode pair idealized as the identity on the stored JSON object.
-/

namespace SecretsMgr

/-! ### Character utilities (ASCII fragment of Python `str` semantics) -/

/-- The double-quote character, written via its code point. -/
def quoteD : Char := Char.ofNat 34

/-- The single-quote character, written via its code point. -/
def quoteS : Char := Char.ofNat 39

/-- Python `\s` / `str.strip()` whitespace (ASCII fragment):
space, tab, newline, carriage return, form feed, vertical tab. -/
def isSpacePy (c : Char) : Bool :=
  c = ' ' || c = Char.ofNat 9 || c = Char.ofNat 10 || c = Char.ofNat 13 ||
  c = Char.ofNat 12 || c = Char.ofNat 11

/-- ASCII decimal digit, Python `\d`. -/
def isDigitC (c : Char) : Bool := 48 ≤ c.toNat && c.toNat ≤ 57

/-- Python `\w` (ASCII fragment): letters, digits, underscore. -/
def isWordC (c : Char) : Bool :=
  isDigitC c || (65 ≤ c.toNat && c.toNat ≤ 90) || (97 ≤ c.toNat && c.toNat ≤ 122) ||
  c = '_'

/-- ASCII upper-case letter, the `[A-Z]` class of the restore pattern. -/
def isUpperC (c : Char) : Bool := 65 ≤ c.toNat && c.toNat ≤ 90

/-- ASCII lower-case folding, the effect of Python `str.lower()` /
`re.IGNORECASE` on the ASCII range. -/
def lowerC (c : Char) : Char := if 65 ≤ c.toNat && c.toNat ≤ 90 then Char.ofNat (c.toNat + 32) else c

/-- Python `str.lower()` on a char list. -/
def lowerL (cs : List Char) : List Char := cs.map lowerC

/-- Python `str.strip()` (ASCII whitespace fragment). -/
def stripPy (cs : List Char) : List Char :=
  ((cs.dropWhile isSpacePy).reverse.dropWhile isSpacePy).reverse

/-- Substring test, Python `pat in s`. -/
def containsSub (pat : List Char) : List Char → Bool
  | [] => pat.isEmpty
  | c :: cs => (pat.isPrefixOf (c :: cs)) || containsSub pat cs

/-- Python `s.replace(old, new)` for non-empty `old`: left-to-right,
non-overlapping replacement of every occurrence.  `fuel` bounds the recursion
and is instantiated with the length of the subject string. -/
def replaceAll (old new : List Char) : Nat → List Char → List Char
  | _, [] => []
  | 0, cs => cs
  | fuel + 1, c :: cs =>
    if old ≠ [] && old.isPrefixOf (c :: cs) then
      new ++ replaceAll old new fuel ((c :: cs).drop old.length)
    else
      c :: replaceAll old new fuel cs

/-- Python `s.replace(old, new)` on `String`s. -/
def replacePy (s old new : String) : String :=
  String.mk (replaceAll old.data new.data s.data.length s.data)

/-- Split on a single character, Python `s.split('\n')` semantics:
empty pieces are kept, `n+1` pieces for `n` separators. -/
def splitOnC (sep : Char) : List Char → List (List Char)
  | [] => [[]]
  | c :: cs =>
    let r := splitOnC sep cs
    if c = sep then [] :: r
    else
      match r with
      | [] => [[c]]
      | p :: ps => (c :: p) :: ps

/-- Python `'\n'.join(pieces)` as the inverse of `splitOnC`. -/
def joinC (sep : Char) : List (List Char) → List Char
  | [] => []
  | [p] => p
  | p :: ps => p ++ sep :: joinC sep ps

theorem splitOnC_ne_nil (sep : Char) (cs : List Char) : splitOnC sep cs ≠ [] := by
  cases cs with
  | nil => simp [splitOnC]
  | cons c cs =>
    simp only [splitOnC]
    by_cases h : c = sep
    · simp [h]
    · simp only [if_neg h]
      cases splitOnC sep cs <;> simp

theorem joinC_splitOnC (sep : Char) (cs : List Char) : joinC sep (splitOnC sep cs) = cs := by
  induction cs with
  | nil => rfl
  | cons c cs ih =>
    simp only [splitOnC]
    by_cases h : c = sep
    · subst h
      simp only [if_pos rfl]
      cases hs : splitOnC c cs with
      | nil => exact absurd hs (splitOnC_ne_nil c cs)
      | cons p ps => rw [hs] at ih; simp [joinC, ih]
    · simp only [if_neg h]
      cases hs : splitOnC sep cs with
      | nil => exact absurd hs (splitOnC_ne_nil sep cs)
      | cons p ps =>
        rw [hs] at ih
        cases ps with
        | nil => simpa [joinC] using congrArg (c :: ·) ih
        | cons q qs => simpa [joinC] using congrArg (c :: ·) ih

/-! ### Decimal rendering and the `%03d` zero-padding of `_generate_label` -/

/-- One decimal digit as a character (argument is taken mod nothing; only
values `< 10` occur). -/
def digitChar : Nat → Char
  | 0 => '0' | 1 => '1' | 2 => '2' | 3 => '3' | 4 => '4'
  | 5 => '5' | 6 => '6' | 7 => '7' | 8 => '8' | 9 => '9'
  | _ => '*'

/-- Numeric value of a decimal digit character. -/
def digitVal (c : Char) : Nat := c.toNat - 48

/-- Little-endian decimal digits of a positive number; `fuel` bounds the
recursion (any `fuel ≥ n` is exact). -/
def digitsRevAux : Nat → Nat → List Char
  | 0, _ => []
  | _ + 1, 0 => []
  | fuel + 1, n + 1 => digitChar ((n + 1) % 10) :: digitsRevAux fuel ((n + 1) / 10)

/-- Decimal rendering of a natural number, Python `'%d' % n`. -/
def decChars (n : Nat) : List Char :=
  if n = 0 then ['0'] else (digitsRevAux n n).reverse

/-- Python `f'{n:03d}'`: decimal rendering left-padded with zeros to at
least 3 characters (wider numbers are kept as-is). -/
def pad3 (n : Nat) : List Char :=
  List.replicate (3 - (decChars n).length) '0' ++ decChars n

/-- Big-endian numeric value of a digit-character list. -/
def valMSB (cs : List Char) : Nat := cs.foldl (fun a c => 10 * a + digitVal c) 0

/-- Little-endian numeric value (helper for `valMSB` over reversed lists). -/
def valLSB : List Char → Nat
  | [] => 0
  | c :: cs => digitVal c + 10 * valLSB cs

theorem digitVal_digitChar (d : Nat) (hd : d < 10) : digitVal (digitChar d) = d := by
  interval_cases d <;> rfl

theorem isDigitC_digitChar (d : Nat) (hd : d < 10) : isDigitC (digitChar d) = true := by
  interval_cases d <;> rfl

theorem valLSB_digitsRevAux (fuel n : Nat) (h : n ≤ fuel) :
    valLSB (digitsRevAux fuel n) = n := by
  induction fuel generalizing n with
  | zero => interval_cases n; rfl
  | succ fuel ih =>
    cases n with
    | zero => rfl
    | succ m =>
      have hdiv : (m + 1) / 10 ≤ fuel := by
        have := Nat.div_lt_self (Nat.succ_pos m) (by norm_num : 1 < 10)
        omega
      simp only [digitsRevAux, valLSB, ih _ hdiv,
        digitVal_digitChar _ (Nat.mod_lt _ (by norm_num))]
      omega

theorem valMSB_reverse (cs : List Char) : valMSB cs.reverse = valLSB cs := by
  induction cs with
  | nil => rfl
  | cons c cs ih =>
    simp only [valMSB, List.reverse_cons, List.foldl_append, List.foldl_cons, List.foldl_nil]
    simp only [valMSB] at ih
    rw [ih]
    clear ih
    induction cs generalizing c with
    | nil => simp [valLSB]
    | cons d ds ih => simp only [valLSB, ih] at *; ring

theorem valMSB_decChars (n : Nat) : valMSB (decChars n) = n := by
  by_cases h : n = 0
  · subst h; rfl
  · simp only [decChars, if_neg h, valMSB_reverse]
    cases n with
    | zero => exact absurd rfl h
    | succ m => exact valLSB_digitsRevAux (m + 1) (m + 1) le_rfl

theorem valMSB_zeros_append (k : Nat) (ds : List Char) :
    valMSB (List.replicate k '0' ++ ds) = valMSB ds := by
  induction k with
  | zero => rfl
  | succ k ih =>
    simpa [valMSB, List.replicate_succ] using ih

theorem valMSB_pad3 (n : Nat) : valMSB (pad3 n) = n := by
  rw [pad3, valMSB_zeros_append, valMSB_decChars]

theorem digitsRevAux_all_digits (fuel : Nat) :
    ∀ n, ∀ c ∈ digitsRevAux fuel n, isDigitC c = true := by
  induction fuel with
  | zero => intro n c hc; simp [digitsRevAux] at hc
  | succ fuel ih =>
    intro n c hc
    cases n with
    | zero => simp [digitsRevAux] at hc
    | succ m =>
      simp only [digitsRevAux, List.mem_cons] at hc
      rcases hc with hc | hc
      · subst hc; exact isDigitC_digitChar _ (Nat.mod_lt _ (by norm_num))
      · exact ih _ c hc

theorem decChars_all_digits (n : Nat) : ∀ c ∈ decChars n, isDigitC c = true := by
  by_cases h : n = 0
  · subst h; intro c hc; simp [decChars] at hc; subst hc; rfl
  · simp only [decChars, if_neg h]
    intro c hc
    rw [List.mem_reverse] at hc
    exact digitsRevAux_all_digits n n c hc

theorem pad3_all_digits (n : Nat) : ∀ c ∈ pad3 n, isDigitC c = true := by
  intro c hc
  rw [pad3, List.mem_append] at hc
  rcases hc with hc | hc
  · rw [List.eq_of_mem_replicate hc]; rfl
  · exact decChars_all_digits n c hc

theorem decChars_ne_nil (n : Nat) : decChars n ≠ [] := by
  by_cases h : n = 0
  · subst h; simp [decChars]
  · simp only [decChars, if_neg h]
    intro hfalse
    have := valMSB_decChars n
    rw [decChars, if_neg h, hfalse] at this
    simp [valMSB] at this
    exact h this.symm

theorem pad3_ne_nil (n : Nat) : pad3 n ≠ [] := by
  simp only [pad3]
  intro hfalse
  rcases List.append_eq_nil.mp hfalse with ⟨-, h2⟩
  exact decChars_ne_nil n h2

/-! ### Python dict as an association list -/

/-- Python dict lookup (`d.get(k)`): first (unique) binding of the key. -/
def lookupD {α : Type} : List (String × α) → String → Option α
  | [], _ => none
  | (k, v) :: r, key => if k = key then some v else lookupD r key

/-- Python dict update (`d[k] = v`): replace in place if the key is present,
else append at the end (dicts preserve insertion order). -/
def dictInsert {α : Type} (m : List (String × α)) (k : String) (v : α) : List (String × α) :=
  if (m.map Prod.fst).contains k then
    m.map (fun p => if p.1 = k then (k, v) else p)
  else m ++ [(k, v)]

/-! ### `SecretsManager` state and operations -/

/-- One row of `self._mapping` (`label -> {type, original_key, description,
hash, created}`).  The `created` timestamp comes from the external clock and
is never read by any operation, so it is omitted from the model. -/
structure Meta where
  type : String
  originalKey : String
  description : String
  hash : String
deriving DecidableEq, Repr

/-- The mutable state of a `SecretsManager` instance: the label prefix
(`self.label_prefix`), the plaintext secret store (`self._secrets`), the
metadata mapping (`self._mapping`) and the vault-wide counter
(`self._counter`). -/
structure Vault where
  labelPfx : String
  secrets : List (String × String)
  mapping : List (String × Meta)
  counter : Nat
deriving DecidableEq, Repr

/-- A freshly constructed vault over an empty directory (no mapping file, no
secrets file): empty dicts, counter 0. -/
def freshVault (pfx : String) : Vault :=
  { labelPfx := pfx, secrets := [], mapping := [], counter := 0 }

/-- ASCII upper-casing, Python `str.upper()` (the detected types are already
upper-case, so this is a no-op on them, as in the source). -/
def upperC (c : Char) : Char :=
  if 97 ≤ c.toNat && c.toNat ≤ 122 then Char.ofNat (c.toNat - 32) else c

/-- The label format `f"{label_prefix}_{secret_type.upper()}_{counter:03d}"`. -/
def mkLabel (pfx secretType : String) (n : Nat) : String :=
  pfx ++ "_" ++ String.mk (secretType.data.map upperC) ++ "_" ++ String.mk (pad3 n)

/-- Source `_generate_label`: increments the counter and renders the label. -/
def generateLabel (s : Vault) (secretType : String) : String × Vault :=
  (mkLabel s.labelPfx secretType (s.counter + 1), { s with counter := s.counter + 1 })

/-- The ordered keyword table of `_detect_secret_type` (Python dicts iterate
in insertion order). -/
def typePatterns : List (String × List String) :=
  [("PASSWORD", ["password", "passwd", "pass", "pwd"]),
   ("TOKEN", ["token", "access_token", "bearer", "jwt"]),
   ("API_KEY", ["api_key", "apikey", "api-key", "key"]),
   ("SECRET", ["secret", "client_secret"]),
   ("CREDENTIAL", ["credential", "auth", "login"]),
   ("EMAIL", ["email", "mail"]),
   ("PHONE", ["phone", "mobile", "tel"]),
   ("LATITUDE", ["latitude", "lat"]),
   ("LONGITUDE", ["longitude", "lon", "lng"]),
   ("IP_ADDRESS", ["ip", "host", "address"]),
   ("URL", ["url", "uri", "endpoint"]),
   ("CERTIFICATE", ["cert", "certificate", "pem", "crt"]),
   ("PRIVATE_KEY", ["private_key", "privkey", "ssh_key"])]

/-- First keyword-table entry whose patterns contain a substring of
`key.lower()` (the `for secret_type, patterns in type_patterns.items()` loop
with `any(p in key_lower ...)`). -/
def keywordType (keyLower : List Char) : List (String × List String) → Option String
  | [] => none
  | (t, pats) :: rest =>
    if pats.any (fun p => containsSub p.data keyLower) then some t
    else keywordType keyLower rest

/-- Python's `$` anchor matches at the end of the string or just before one
final newline; `re.match(r'^core$', v)` therefore also accepts `v ++ "\n"`. -/
def dollarMatch (core : List Char → Bool) (cs : List Char) : Bool :=
  core cs || (match cs.reverse with
              | c :: r => c = Char.ofNat 10 && core r.reverse
              | [] => false)

/-- Core of `^[\w-]+\.[\w-]+\.[\w-]+$`: exactly three dot-separated non-empty
chunks of word-or-dash characters (the classes cannot match a dot, so the
regex is equivalent to this split form). -/
def jwtCore (cs : List Char) : Bool :=
  match splitOnC '.' cs with
  | [a, b, c] => !a.isEmpty && !b.isEmpty && !c.isEmpty &&
                 (a ++ b ++ c).all (fun ch => isWordC ch || ch = '-')
  | _ => false

/-- Core of `^[a-f0-9]{32,}$` (applied to `value.lower()` in the source). -/
def hexCore (cs : List Char) : Bool :=
  cs.length ≥ 32 && cs.all (fun c => isDigitC c || (97 ≤ c.toNat && c.toNat ≤ 102))

/-- Core of `^\d{1,3}\.\d{1,3}\.\d{1,3}\.\d{1,3}$`: four dot-separated chunks
of one to three digits. -/
def ipLooseCore (cs : List Char) : Bool :=
  match splitOnC '.' cs with
  | [a, b, c, d] => [a, b, c, d].all
      (fun p => 1 ≤ p.length && p.length ≤ 3 && p.all isDigitC)
  | _ => false

/-- Source `_detect_secret_type`: keyword match on the key first (priority order,
first match wins), then the structural value patterns, then `SECRET`. -/
def detectSecretType (key value : String) : String :=
  match keywordType (lowerL key.data) typePatterns with
  | some t => t
  | none =>
    if dollarMatch jwtCore value.data then "TOKEN"
    else if dollarMatch hexCore (lowerL value.data) then "API_KEY"
    else if dollarMatch ipLooseCore value.data then "IP_ADDRESS"
    else if containsSub ['@'] value.data && containsSub ['.'] value.data then "EMAIL"
    else "SECRET"

/-- First label in `self._mapping` whose metadata hash equals the given hash
(the duplicate-detection loop of `add_secret`). -/
def findByHash : List (String × Meta) → String → Option String
  | [], _ => none
  | (l, m) :: r, h => if m.hash = h then some l else findByHash r h

/-- Source `add_secret`: empty values are returned unchanged; a value whose hash is
already stored returns the existing label; otherwise a type is inferred, the
counter is bumped, and the value and metadata are stored under the new label.
The digest function (`hashlib.sha256(...).hexdigest()[:16]`) is an external
collaborator passed as `hashFn`. -/
def addSecret (hashFn : String → String) (s : Vault) (key value : String) :
    String × Vault :=
  if value = "" then (value, s)
  else
    let vh := hashFn value
    match findByHash s.mapping vh with
    | some label => ("<<" ++ label ++ ">>", s)
    | none =>
      let stype := detectSecretType key value
      let (label, s1) := generateLabel s stype
      let s2 : Vault :=
        { s1 with
          secrets := dictInsert s1.secrets label value,
          mapping := dictInsert s1.mapping label
            ⟨stype, key, "Secret from " ++ key, vh⟩ }
      ("<<" ++ label ++ ">>", s2)

/-- Source `get_secret`: strips `<<` and `>>`, trims whitespace, and looks the label
up in the plaintext store. -/
def getSecret (s : Vault) (label : String) : Option String :=
  let clean := String.mk (stripPy (replacePy (replacePy label "<<" "") ">>" "").data)
  lookupD s.secrets clean

/-! ### `restore_secrets_in_text` -/

/-- Parser for one occurrence of the restore pattern
`<<(PREFIX_[A-Z]+_\d{3})>>` at the head of the input (`PREFIX` is
`re.escape(self.label_prefix)`, hence literal).  `[A-Z]+` cannot match `_` or
digits, so greedy maximal-munch is exact.  Returns the captured group-1 label
and the rest of the input. -/
def parseDelim (pfx : List Char) (cs : List Char) : Option (List Char × List Char) :=
  match cs with
  | '<' :: '<' :: rest =>
    if pfx.isPrefixOf rest then
      match rest.drop pfx.length with
      | '_' :: rest2 =>
        let us := rest2.takeWhile isUpperC
        if us.isEmpty then none
        else
          match rest2.drop us.length with
          | '_' :: d1 :: d2 :: d3 :: '>' :: '>' :: rest3 =>
            if isDigitC d1 && isDigitC d2 && isDigitC d3 then
              some (pfx ++ '_' :: (us ++ '_' :: [d1, d2, d3]), rest3)
            else none
          | _ => none
      | _ => none
    else none
  | _ => none

/-- The `re.sub` scan of `restore_secrets_in_text`: at each position, if the
restore pattern matches, substitute the stored secret when the lookup yields
a non-empty value (`if secret:`), otherwise keep the matched text; in both
cases continue after the match.  `fuel` bounds the recursion and is
instantiated with the input length (every step consumes at least one
character). -/
def restoreAux (secrets : List (String × String)) (pfx : List Char) :
    Nat → List Char → List Char
  | _, [] => []
  | 0, cs => cs
  | fuel + 1, c :: cs =>
    match parseDelim pfx (c :: cs) with
    | some (label, rest) =>
      let matched := '<' :: '<' :: (label ++ ['>', '>'])
      (match lookupD secrets (String.mk label) with
       | some v => if v = "" then matched else v.data
       | none => matched) ++ restoreAux secrets pfx fuel rest
    | none => c :: restoreAux secrets pfx fuel cs

/-- Source `restore_secrets_in_text`, on `String`s. -/
def restoreSecretsInText (s : Vault) (text : String) : String :=
  String.mk (restoreAux s.secrets s.labelPfx.data text.data.length text.data)

/-! ### A backtracking regex matcher for the `SENSITIVE_PATTERNS` catalogue

The eight patterns use only literals, character classes, `?`/`*`/`+` over
classes, alternation, bounded repetition (expanded syntactically), word
boundaries and capture groups.  The matcher below reproduces Python `re`
semantics for exactly these constructs: alternatives are tried in written
order, quantifiers are greedy with backtracking, and the first success in
this priority order is the match — which is what `re.finditer` yields at
each starting position. -/

/-- Regex abstract syntax (the fragment the catalogue needs). -/
inductive RE where
  | eps
  | cls (p : Char → Bool)
  | lit (l : List Char)
  | seq (a b : RE)
  | alt (a b : RE)
  | opt (a : RE)
  | star (p : Char → Bool)
  | plus (p : Char → Bool)
  | bound
  | grp (i : Nat) (a : RE)

/-- Result of one match attempt: last consumed character (for `\b`),
remaining input, captured groups (index, text). -/
def RRes : Type := Option Char × List Char × List (Nat × List Char)

/-- Continuation type of the matcher. -/
def RCont : Type := Option Char → List Char → List (Nat × List Char) → Option RRes

/-- Case-insensitive literal consumption (the catalogue is compiled with
`re.IGNORECASE`; literals are stored lower-case). -/
def litM : List Char → Option Char → List Char → RCont → Option RRes
  | [], prev, s, k => k prev s []
  | lc :: ls, _, s, k =>
    match s with
    | [] => none
    | c :: r => if lowerC c = lc then litM ls (some c) r k else none

/-- Greedy quantifier backtracking over a maximal class run: try consuming
the whole run first, then give characters back one at a time. -/
def starM : List Char → List Char → Option Char → RCont → Option RRes
  | [], rest, prev0, k => k prev0 rest []
  | c :: rr, rest, prev0, k =>
    k (some c) rest [] <|> starM rr (c :: rest) prev0 k

/-- Word boundary `\b`: exactly one of the neighbouring positions holds a
word character (out of bounds counts as non-word). -/
def atBoundary (prev : Option Char) (s : List Char) : Bool :=
  let pw := match prev with | some c => isWordC c | none => false
  let nw := match s with | c :: _ => isWordC c | [] => false
  pw != nw

/-- The backtracking matcher, in continuation-passing style.  `prev` is the
character before the current position (for `\b`); the continuation receives
the new `prev`, the remaining input, and the captures of the consumed part. -/
def reM : RE → Option Char → List Char → RCont → Option RRes
  | .eps, prev, s, k => k prev s []
  | .cls p, _, s, k =>
    (match s with
     | [] => none
     | c :: r => if p c then k (some c) r [] else none)
  | .lit l, prev, s, k => litM l prev s k
  | .seq a b, prev, s, k =>
    reM a prev s (fun p1 s1 c1 => reM b p1 s1 (fun p2 s2 c2 => k p2 s2 (c1 ++ c2)))
  | .alt a b, prev, s, k => reM a prev s k <|> reM b prev s k
  | .opt a, prev, s, k => reM a prev s k <|> k prev s []
  | .star p, prev, s, k =>
    let run := s.takeWhile p
    starM run.reverse (s.drop run.length) prev k
  | .plus p, _prev, s, k =>
    (match s with
     | [] => none
     | c :: r =>
       if p c then
         let run := r.takeWhile p
         starM run.reverse (r.drop run.length) (some c) k
       else none)
  | .bound, prev, s, k => if atBoundary prev s then k prev s [] else none
  | .grp i a, prev, s, k =>
    reM a prev s (fun p1 s1 c1 => k p1 s1 (c1 ++ [(i, s.take (s.length - s1.length))]))

/-- One match of `re.finditer`: the matched text (group 0) and the captures. -/
structure MatchRes where
  whole : List Char
  caps : List (Nat × List Char)
deriving DecidableEq, Repr

/-- First capture with the given group index. -/
def capLookup : List (Nat × List Char) → Nat → Option (List Char)
  | [], _ => none
  | (i, t) :: r, j => if i = j then some t else capLookup r j

/-- Python `re.finditer`: scan left to right; at each position take the matcher's
preferred match if any, record it and continue after it, else advance one
character.  (None of the catalogue's patterns can match the empty string; an
empty match would advance one character, like Python.)  `fuel` bounds the
recursion and is instantiated with the input length. -/
def findAllAux (r : RE) : Nat → Option Char → List Char → List MatchRes
  | _, _, [] => []
  | 0, _, _ => []
  | fuel + 1, prev, c :: cs =>
    match reM r prev (c :: cs) (fun p1 s1 caps => some (p1, s1, caps)) with
    | some (p1, s1, caps) =>
      let len := (c :: cs).length - s1.length
      if len = 0 then findAllAux r fuel (some c) cs
      else ⟨(c :: cs).take len, caps⟩ :: findAllAux r fuel p1 s1
    | none => findAllAux r fuel (some c) cs

/-- All matches of a pattern in a line. -/
def findAll (r : RE) (line : List Char) : List MatchRes :=
  findAllAux r line.length none line

/-! ### The `SENSITIVE_PATTERNS` catalogue as `RE` values -/

/-- The `["\']` class. -/
def clsQ (c : Char) : Bool := c = quoteD || c = quoteS

/-- The `[^"\'\n]` class. -/
def clsNotQNl (c : Char) : Bool := !(c = quoteD || c = quoteS || c = Char.ofNat 10)

/-- The `[:=]` class. -/
def clsColonEq (c : Char) : Bool := c = ':' || c = '='

/-- ASCII letter, the `[a-zA-Z]` class. -/
def clsAlpha (c : Char) : Bool :=
  (65 ≤ c.toNat && c.toNat ≤ 90) || (97 ≤ c.toNat && c.toNat ≤ 122)

/-- The `[a-zA-Z0-9._%+-]` class (email local part). -/
def clsEmailLocal (c : Char) : Bool :=
  clsAlpha c || isDigitC c || c = '.' || c = '_' || c = '%' || c = '+' || c = '-'

/-- The `[a-zA-Z0-9.-]` class (email domain part). -/
def clsEmailDom (c : Char) : Bool := clsAlpha c || isDigitC c || c = '.' || c = '-'

/-- Shared shape of the key-value patterns:
`(KEYWORDS)\s*[:=]\s*["\']?([^"\'\n]+)["\']?`. -/
def kvPattern (keywords : RE) : RE :=
  .seq (.grp 1 keywords)
    (.seq (.star isSpacePy)
      (.seq (.cls clsColonEq)
        (.seq (.star isSpacePy)
          (.seq (.opt (.cls clsQ))
            (.seq (.grp 2 (.plus clsNotQNl)) (.opt (.cls clsQ)))))))

/-- Pattern `(password|passwd|pass|pwd)\s*[:=]\s*["\']?([^"\'\n]+)["\']?`. -/
def passwordRE : RE :=
  kvPattern (.alt (.lit "password".data)
    (.alt (.lit "passwd".data) (.alt (.lit "pass".data) (.lit "pwd".data))))

/-- Pattern `(token|access_token|bearer_token)\s*[:=]\s*["\']?([^"\'\n]+)["\']?`. -/
def tokenRE : RE :=
  kvPattern (.alt (.lit "token".data)
    (.alt (.lit "access_token".data) (.lit "bearer_token".data)))

/-- Pattern `(api_key|apikey|api-key)\s*[:=]\s*["\']?([^"\'\n]+)["\']?`. -/
def apiKeyRE : RE :=
  kvPattern (.alt (.lit "api_key".data) (.alt (.lit "apikey".data) (.lit "api-key".data)))

/-- Pattern `(secret|client_secret)\s*[:=]\s*["\']?([^"\'\n]+)["\']?`. -/
def secretRE : RE :=
  kvPattern (.alt (.lit "secret".data) (.lit "client_secret".data))

/-- Pattern `[a-zA-Z0-9._%+-]+@[a-zA-Z0-9.-]+\.[a-zA-Z]{2,}` (the `{2,}` is expanded
as two mandatory letters followed by a greedy star). -/
def emailRE : RE :=
  .seq (.plus clsEmailLocal)
    (.seq (.cls (fun c => c = '@'))
      (.seq (.plus clsEmailDom)
        (.seq (.cls (fun c => c = '.'))
          (.seq (.cls clsAlpha) (.seq (.cls clsAlpha) (.star clsAlpha))))))

/-- One octet of the IP pattern: `25[0-5]|2[0-4][0-9]|[01]?[0-9][0-9]?`. -/
def ipOctet : RE :=
  .alt (.seq (.lit "25".data) (.cls (fun c => 48 ≤ c.toNat && c.toNat ≤ 53)))
    (.alt (.seq (.lit "2".data)
            (.seq (.cls (fun c => 48 ≤ c.toNat && c.toNat ≤ 52)) (.cls isDigitC)))
      (.seq (.opt (.cls (fun c => c = '0' || c = '1')))
        (.seq (.cls isDigitC) (.opt (.cls isDigitC)))))

/-- Pattern `\b(?:(?:OCTET)\.){3}(?:OCTET)\b` (the `{3}` is expanded). -/
def ipRE : RE :=
  .seq .bound
    (.seq ipOctet (.seq (.cls (fun c => c = '.'))
      (.seq ipOctet (.seq (.cls (fun c => c = '.'))
        (.seq ipOctet (.seq (.cls (fun c => c = '.'))
          (.seq ipOctet .bound)))))))

/-- The numeric value group of the coordinate patterns: `(-?\d+\.?\d*)`. -/
def coordNum : RE :=
  .seq (.opt (.cls (fun c => c = '-')))
    (.seq (.plus isDigitC) (.seq (.opt (.cls (fun c => c = '.'))) (.star isDigitC)))

/-- Pattern `(latitude|lat)\s*[:=]\s*(-?\d+\.?\d*)`. -/
def latitudeRE : RE :=
  .seq (.grp 1 (.alt (.lit "latitude".data) (.lit "lat".data)))
    (.seq (.star isSpacePy)
      (.seq (.cls clsColonEq) (.seq (.star isSpacePy) (.grp 2 coordNum))))

/-- Pattern `(longitude|lon|lng)\s*[:=]\s*(-?\d+\.?\d*)`. -/
def longitudeRE : RE :=
  .seq (.grp 1 (.alt (.lit "longitude".data) (.alt (.lit "lon".data) (.lit "lng".data))))
    (.seq (.star isSpacePy)
      (.seq (.cls clsColonEq) (.seq (.star isSpacePy) (.grp 2 coordNum))))

/-- Source `SecretsSanitizer.SENSITIVE_PATTERNS`, in dict (insertion) order. -/
def sensitivePatterns : List (String × RE) :=
  [("password", passwordRE), ("token", tokenRE), ("api_key", apiKeyRE),
   ("secret", secretRE), ("email", emailRE), ("ip_address", ipRE),
   ("latitude", latitudeRE), ("longitude", longitudeRE)]

/-! ### `SecretsSanitizer` -/

/-- Source `SecretsSanitizer.SKIP_VALUES`. -/
def skipValues : List String :=
  ["example", "placeholder", "your_", "xxx", "***", "none", "null", "true", "false"]

/-- Source `should_skip`: empty, shorter than 3 characters, or containing a
denylisted substring case-insensitively. -/
def shouldSkip (value : List Char) : Bool :=
  value.isEmpty || value.length < 3 ||
  skipValues.any (fun sk => containsSub sk.data (lowerL value))

/-- Candidate key/value of one match: the whole match for the value-only
patterns (`email`, `ip_address`), otherwise groups 1 and 2; a missing group
yields `none` (the `except: continue` branch). -/
def extractKV (ptype : String) (m : MatchRes) : Option (String × List Char) :=
  if ptype = "email" || ptype = "ip_address" then some (ptype, m.whole)
  else
    match capLookup m.caps 1, capLookup m.caps 2 with
    | some kg, some vg => some (String.mk kg, vg)
    | _, _ => none

/-- Processing of one match inside `sanitize_yaml_content`'s inner loop:
skip or `add_secret(key, value.strip())` followed by
`sanitized_line.replace(value, label)` (which replaces every occurrence of
the raw, unstripped value in the current sanitized line). -/
def sanitizeMatch (hashFn : String → String) (ptype : String)
    (st : List Char × Vault) (m : MatchRes) : List Char × Vault :=
  match extractKV ptype m with
  | none => st
  | some (key, value) =>
    if shouldSkip value then st
    else
      let (label, s1) := addSecret hashFn st.2 key (String.mk (stripPy value))
      (replaceAll value label.data st.1.length st.1, s1)

/-- Source test `line.strip().startswith('#')`. -/
def isCommentLine (line : List Char) : Bool :=
  match stripPy line with
  | '#' :: _ => true
  | _ => false

/-- One line of `sanitize_yaml_content`: comment lines (stripped line starts
with `#`) pass through; otherwise every pattern's matches — computed on the
original line — are folded over the (sanitized line, vault) state. -/
def sanitizeLine (hashFn : String → String) (s : Vault) (line : List Char) :
    List Char × Vault :=
  if isCommentLine line then (line, s)
  else
    sensitivePatterns.foldl
      (fun st pr => (findAll pr.2 line).foldl (sanitizeMatch hashFn pr.1) st)
      (line, s)

/-- Source `sanitize_yaml_content`: split on newlines, sanitize each line threading
the vault, and re-join. -/
def sanitizeYamlContent (hashFn : String → String) (s : Vault) (content : String) :
    String × Vault :=
  let nl : Char := Char.ofNat 10
  let folded := (splitOnC nl content.data).foldl
    (fun (acc : List (List Char) × Vault) l =>
      let (l1, s1) := sanitizeLine hashFn acc.2 l
      (acc.1 ++ [l1], s1))
    ([], s)
  (String.mk (joinC nl folded.1), folded.2)

/-! ### Persistence: `save` and `_load_existing`

The file system and the Fernet / base64 codecs are external collaborators.
A file is modelled as the JSON object it stores; reading yields `missing`
(file does not exist), `corrupt` (JSON decode or decryption failure, the
`except` branches), or the stored object (`decrypt(encrypt(x)) = x` and
`b64decode(b64encode(x)) = x` are idealized away).  `self._fernet` is set
exactly when the `cryptography` import succeeded (`CRYPTO_AVAILABLE`). -/

/-- Outcome of reading a persisted file. -/
inductive FileRead (α : Type) where
  | missing
  | corrupt
  | ok (a : α)

/-- Content of `secrets_mapping.json`: the `counter` and `mapping` fields
(the `updated` timestamp is written but never read back). -/
structure MappingData where
  counter : Nat
  mapping : List (String × Meta)

/-- The pair of file images written by `save()`: the metadata mapping file
and the secrets store (Fernet-encrypted when crypto is available, base64
otherwise — in both modes the stored object is the label → value table). -/
structure SavedFiles where
  mappingData : MappingData
  secretsData : List (String × String)

/-- Source `save()`: writes both files from the in-memory state. -/
def save (s : Vault) : SavedFiles :=
  { mappingData := { counter := s.counter, mapping := s.mapping },
    secretsData := s.secrets }

/-- Source `__init__` followed by `_load_existing` over existing file images: the mapping
file populates `_mapping` and `_counter` (missing or corrupt leaves the
empty defaults); the secrets file is read ONLY when `self._fernet` is set,
i.e. only when crypto is available — in base64 fallback mode it is never
read, and a corrupt or missing file leaves `_secrets` empty. -/
def loadExisting (cryptoAvailable : Bool) (pfx : String)
    (mappingRead : FileRead MappingData)
    (secretsRead : FileRead (List (String × String))) : Vault :=
  let md := match mappingRead with
    | .ok d => (d.mapping, d.counter)
    | _ => ([], 0)
  let sec := if cryptoAvailable then
      match secretsRead with
      | .ok t => t
      | _ => []
    else []
  { labelPfx := pfx, secrets := sec, mapping := md.1, counter := md.2 }

/-! ### Sequence numbers recoverable from labels -/

/-- The trailing decimal run of a label (also behind a trailing `>>`),
parsed as a number: recovers the `%03d` sequence number of any label the
vault generates, delimited or not. -/
def seqOfLabel (l : String) : Option Nat :=
  let ds := (l.data.reverse.dropWhile (fun c => !isDigitC c)).takeWhile isDigitC
  if ds.isEmpty then none else some (valMSB ds.reverse)

theorem takeWhile_all_append {p : Char → Bool} (l1 : List Char) (d : Char) (l2 : List Char)
    (h1 : ∀ c ∈ l1, p c = true) (h2 : p d = false) :
    (l1 ++ d :: l2).takeWhile p = l1 := by
  induction l1 with
  | nil => simp [List.takeWhile, h2]
  | cons c cs ih =>
    have hc : p c = true := h1 c (by simp)
    simp only [List.cons_append, List.takeWhile_cons, hc, if_true]
    rw [ih (fun x hx => h1 x (by simp [hx]))]

theorem takeWhile_all {p : Char → Bool} (l : List Char) (h : ∀ c ∈ l, p c = true) :
    l.takeWhile p = l := by
  induction l with
  | nil => rfl
  | cons c cs ih =>
    simp only [List.takeWhile_cons, h c (by simp), if_true]
    rw [ih (fun x hx => h x (by simp [hx]))]

theorem seqOfLabel_raw (pre : List Char) (n : Nat)
    (hpre : ∀ c ∈ pre, isDigitC c = false) :
    seqOfLabel (String.mk (pre.reverse ++ pad3 n)) = some n := by
  have hall := pad3_all_digits n
  have hne := pad3_ne_nil n
  simp only [seqOfLabel]
  have hrev : (pre.reverse ++ pad3 n).reverse = (pad3 n).reverse ++ pre := by
    simp
  simp only [hrev]
  have hdrop : ((pad3 n).reverse ++ pre).dropWhile (fun c => !isDigitC c) =
      (pad3 n).reverse ++ pre := by
    cases hp : (pad3 n).reverse with
    | nil => exact absurd (by simpa using congrArg List.reverse hp) hne
    | cons c cs =>
      have hc : isDigitC c = true := by
        have : c ∈ (pad3 n).reverse := by rw [hp]; simp
        exact hall c (by simpa using this)
      simp [List.dropWhile_cons, hc]
  rw [hdrop]
  have htake : ((pad3 n).reverse ++ pre).takeWhile isDigitC = (pad3 n).reverse := by
    cases hp : pre with
    | nil =>
      rw [List.append_nil]
      exact takeWhile_all _ (fun c hc => hall c (by simpa using hc))
    | cons d ds =>
      refine takeWhile_all_append _ d ds (fun c hc => hall c (by simpa using hc)) ?_
      exact hpre d (by simp [hp])
  rw [htake]
  have hfalse : (pad3 n).reverse.isEmpty = false := by
    cases hp : (pad3 n).reverse with
    | nil => exact absurd (by simpa using congrArg List.reverse hp) hne
    | cons c cs => rfl
  simp [hfalse, List.reverse_reverse, valMSB_pad3]

theorem dropWhile_all_append {p : Char → Bool} (l1 l2 : List Char)
    (h1 : ∀ c ∈ l1, p c = true) :
    (l1 ++ l2).dropWhile p = l2.dropWhile p := by
  induction l1 with
  | nil => rfl
  | cons c cs ih =>
    simp only [List.cons_append, List.dropWhile_cons, h1 c (by simp), if_true]
    exact ih (fun x hx => h1 x (by simp [hx]))

/-- Any string of the shape `init ++ "_" ++ pad3 n ++ tail` with a digit-free
`tail` has recoverable sequence number `n` — this covers every label the
vault generates, both raw and `<< >>`-delimited, for any prefix and type. -/
theorem seqOfLabel_shape (init tail : List Char) (n : Nat)
    (htail : ∀ c ∈ tail, isDigitC c = false) :
    seqOfLabel (String.mk (init ++ '_' :: (pad3 n ++ tail))) = some n := by
  have hall := pad3_all_digits n
  have hne := pad3_ne_nil n
  simp only [seqOfLabel]
  have hrev : (init ++ '_' :: (pad3 n ++ tail)).reverse =
      tail.reverse ++ ((pad3 n).reverse ++ '_' :: init.reverse) := by
    simp
  rw [hrev]
  rw [dropWhile_all_append _ _ (fun c hc => by
    simp only [Bool.not_eq_true']
    exact htail c (by simpa using hc))]
  have hdrop : ((pad3 n).reverse ++ '_' :: init.reverse).dropWhile (fun c => !isDigitC c) =
      (pad3 n).reverse ++ '_' :: init.reverse := by
    cases hp : (pad3 n).reverse with
    | nil => exact absurd (by simpa using congrArg List.reverse hp) hne
    | cons c cs =>
      have hc : isDigitC c = true := by
        have : c ∈ (pad3 n).reverse := by rw [hp]; simp
        exact hall c (by simpa using this)
      simp [List.dropWhile_cons, hc]
  rw [hdrop]
  rw [takeWhile_all_append _ '_' init.reverse (fun c hc => hall c (by simpa using hc)) (by rfl)]
  have hfalse : (pad3 n).reverse.isEmpty = false := by
    cases hp : (pad3 n).reverse with
    | nil => exact absurd (by simpa using congrArg List.reverse hp) hne
    | cons c cs => rfl
  simp [hfalse, List.reverse_reverse, valMSB_pad3]

theorem seqOfLabel_mkLabel (pfx t : String) (n : Nat) :
    seqOfLabel (mkLabel pfx t n) = some n := by
  have hdat : (mkLabel pfx t n).data =
      (String.mk ((pfx.data ++ '_' :: (t.data.map upperC)) ++ '_' :: (pad3 n ++ []))).data := by
    simp [mkLabel, String.data_append]
  rw [String.ext hdat]
  exact seqOfLabel_shape _ _ n (by simp)

theorem seqOfLabel_delim (pfx t : String) (n : Nat) :
    seqOfLabel ("<<" ++ mkLabel pfx t n ++ ">>") = some n := by
  have hdat : ("<<" ++ mkLabel pfx t n ++ ">>").data =
      (String.mk (('<' :: '<' :: pfx.data ++ '_' :: (t.data.map upperC)) ++
        '_' :: (pad3 n ++ ['>', '>']))).data := by
    simp [mkLabel, String.data_append]
  rw [String.ext hdat]
  refine seqOfLabel_shape _ _ n ?_
  intro c hc
  simp only [List.mem_cons, List.mem_singleton, List.not_mem_nil] at hc
  rcases hc with h | h | h
  · subst h; rfl
  · subst h; rfl
  · exact absurd h (by simp)

/-! ### The vault invariant and frame lemmas -/

/-- Keys of an association list (the dict's key view). -/
def keysOf {α : Type} (m : List (String × α)) : List String := m.map Prod.fst

/-- Well-formedness of a vault state: every stored label carries a
recoverable sequence number between 1 and the current counter.  It holds
for a fresh vault and is preserved by every operation; it expresses that
the counter dominates every issued sequence number. -/
def WF (s : Vault) : Prop :=
  (∀ l ∈ keysOf s.secrets, ∃ n, seqOfLabel l = some n ∧ 1 ≤ n ∧ n ≤ s.counter) ∧
  (∀ l ∈ keysOf s.mapping, ∃ n, seqOfLabel l = some n ∧ 1 ≤ n ∧ n ≤ s.counter)

theorem wf_freshVault (pfx : String) : WF (freshVault pfx) := by
  constructor <;> simp [keysOf, freshVault]

theorem dictInsert_fresh {α : Type} (m : List (String × α)) (k : String) (v : α)
    (h : k ∉ keysOf m) : dictInsert m k v = m ++ [(k, v)] := by
  have hc : (m.map Prod.fst).contains k = false := by simpa [keysOf] using h
  simp only [dictInsert, hc]
  simp

theorem keysOf_append {α : Type} (m t : List (String × α)) :
    keysOf (m ++ t) = keysOf m ++ keysOf t := by
  simp [keysOf]

theorem lookupD_append_some {α : Type} (m t : List (String × α)) (k : String) (v : α)
    (h : lookupD m k = some v) : lookupD (m ++ t) k = some v := by
  induction m with
  | nil => simp [lookupD] at h
  | cons p r ih =>
    obtain ⟨pk, pv⟩ := p
    by_cases hk : pk = k
    · simp [lookupD, hk] at h ⊢; exact h
    · simp only [lookupD, if_neg hk, List.cons_append] at h ⊢
      exact ih h

theorem findByHash_none_iff (m : List (String × Meta)) (h : String) :
    findByHash m h = none ↔ ∀ e ∈ m, e.2.hash ≠ h := by
  induction m with
  | nil => simp [findByHash]
  | cons p r ih =>
    obtain ⟨pk, pm⟩ := p
    by_cases hh : pm.hash = h
    · simp [findByHash, hh]
    · simp [findByHash, hh, ih]

theorem findByHash_append (m t : List (String × Meta)) (h : String)
    (hm : findByHash m h = none) : findByHash (m ++ t) h = findByHash t h := by
  induction m with
  | nil => rfl
  | cons p r ih =>
    obtain ⟨pk, pm⟩ := p
    by_cases hh : pm.hash = h
    · simp [findByHash, hh] at hm
    · simp only [findByHash, if_neg hh, List.cons_append] at hm ⊢
      exact ih hm

/-- Lemma: `add_secret` on a duplicate value: the dedup loop returns the existing
label and the state is untouched. -/
theorem addSecret_dedup (hashFn : String → String) (s : Vault) (k v lab : String)
    (hv : v ≠ "") (hl : findByHash s.mapping (hashFn v) = some lab) :
    addSecret hashFn s k v = ("<<" ++ lab ++ ">>", s) := by
  simp [addSecret, hv, hl]

/-- Lemma: `add_secret` on a fresh non-empty value: a new entry under the label
built from the inferred type and the bumped counter. -/
theorem addSecret_new (hashFn : String → String) (s : Vault) (k v : String)
    (hv : v ≠ "") (hnone : findByHash s.mapping (hashFn v) = none) :
    addSecret hashFn s k v =
      ("<<" ++ mkLabel s.labelPfx (detectSecretType k v) (s.counter + 1) ++ ">>",
       { labelPfx := s.labelPfx,
         secrets := dictInsert s.secrets
           (mkLabel s.labelPfx (detectSecretType k v) (s.counter + 1)) v,
         mapping := dictInsert s.mapping
           (mkLabel s.labelPfx (detectSecretType k v) (s.counter + 1))
           ⟨detectSecretType k v, k, "Secret from " ++ k, hashFn v⟩,
         counter := s.counter + 1 }) := by
  simp [addSecret, hv, hnone, generateLabel]

/-- Under the invariant, the freshly generated label is absent from both
dicts (its sequence number exceeds every stored one). -/
theorem mkLabel_fresh (s : Vault) (t : String) (hwf : WF s) :
    mkLabel s.labelPfx t (s.counter + 1) ∉ keysOf s.secrets ∧
    mkLabel s.labelPfx t (s.counter + 1) ∉ keysOf s.mapping := by
  constructor
  · intro hmem
    obtain ⟨n, hn, -, hle⟩ := hwf.1 _ hmem
    rw [seqOfLabel_mkLabel] at hn
    have := Option.some.inj hn
    omega
  · intro hmem
    obtain ⟨n, hn, -, hle⟩ := hwf.2 _ hmem
    rw [seqOfLabel_mkLabel] at hn
    have := Option.some.inj hn
    omega

/-- State evolution contract shared by `add_secret` and the sanitizer: the
prefix is unchanged, the counter never decreases, and every existing binding
of both dicts (issued label → value / metadata) is preserved. -/
def Pres (s s1 : Vault) : Prop :=
  s1.labelPfx = s.labelPfx ∧ s.counter ≤ s1.counter ∧
  (∀ l v, lookupD s.secrets l = some v → lookupD s1.secrets l = some v) ∧
  (∀ l m, lookupD s.mapping l = some m → lookupD s1.mapping l = some m)

theorem pres_refl (s : Vault) : Pres s s :=
  ⟨rfl, le_refl _, fun _ _ h => h, fun _ _ h => h⟩

theorem pres_trans {s1 s2 s3 : Vault} (h12 : Pres s1 s2) (h23 : Pres s2 s3) :
    Pres s1 s3 :=
  ⟨h23.1.trans h12.1, h12.2.1.trans h23.2.1,
   fun l v h => h23.2.2.1 l v (h12.2.2.1 l v h),
   fun l m h => h23.2.2.2 l m (h12.2.2.2 l m h)⟩

theorem addSecret_wf_pres (hashFn : String → String) (s : Vault) (k v : String)
    (hwf : WF s) :
    WF (addSecret hashFn s k v).2 ∧ Pres s (addSecret hashFn s k v).2 := by
  by_cases hv : v = ""
  · simp [addSecret, hv, hwf, pres_refl]
  · cases hl : findByHash s.mapping (hashFn v) with
    | some lab =>
      rw [addSecret_dedup hashFn s k v lab hv hl]
      exact ⟨hwf, pres_refl s⟩
    | none =>
      rw [addSecret_new hashFn s k v hv hl]
      have hfresh := mkLabel_fresh s (detectSecretType k v) hwf
      rw [dictInsert_fresh _ _ _ hfresh.1, dictInsert_fresh _ _ _ hfresh.2]
      dsimp only
      constructor
      · constructor
        · intro l hm
          rw [keysOf_append] at hm
          rcases List.mem_append.mp hm with hm | hm
          · obtain ⟨n, hn, h1, hle⟩ := hwf.1 _ hm
            exact ⟨n, hn, h1, le_trans hle (Nat.le_succ _)⟩
          · have hlab : l = mkLabel s.labelPfx (detectSecretType k v) (s.counter + 1) := by
              simpa [keysOf] using hm
            exact ⟨s.counter + 1, by rw [hlab, seqOfLabel_mkLabel], Nat.succ_le_succ (Nat.zero_le _), le_refl _⟩
        · intro l hm
          rw [keysOf_append] at hm
          rcases List.mem_append.mp hm with hm | hm
          · obtain ⟨n, hn, h1, hle⟩ := hwf.2 _ hm
            exact ⟨n, hn, h1, le_trans hle (Nat.le_succ _)⟩
          · have hlab : l = mkLabel s.labelPfx (detectSecretType k v) (s.counter + 1) := by
              simpa [keysOf] using hm
            exact ⟨s.counter + 1, by rw [hlab, seqOfLabel_mkLabel], Nat.succ_le_succ (Nat.zero_le _), le_refl _⟩
      · exact ⟨rfl, Nat.le_succ _,
          fun l w h => lookupD_append_some _ _ l w h,
          fun l m h => lookupD_append_some _ _ l m h⟩

/-- Generic fold preservation of the invariant and the evolution contract. -/
theorem foldl_wf_pres {σ α : Type} (proj : σ → Vault) (f : σ → α → σ)
    (hstep : ∀ st a, WF (proj st) → WF (proj (f st a)) ∧ Pres (proj st) (proj (f st a))) :
    ∀ (l : List α) (st : σ), WF (proj st) →
      WF (proj (l.foldl f st)) ∧ Pres (proj st) (proj (l.foldl f st)) := by
  intro l
  induction l with
  | nil => intro st h; exact ⟨h, pres_refl _⟩
  | cons a r ih =>
    intro st h
    obtain ⟨h1, h2⟩ := hstep st a h
    obtain ⟨h3, h4⟩ := ih (f st a) h1
    exact ⟨h3, pres_trans h2 h4⟩

theorem sanitizeMatch_wf_pres (hashFn : String → String) (ptype : String)
    (st : List Char × Vault) (m : MatchRes) (hwf : WF st.2) :
    WF (sanitizeMatch hashFn ptype st m).2 ∧
    Pres st.2 (sanitizeMatch hashFn ptype st m).2 := by
  unfold sanitizeMatch
  cases extractKV ptype m with
  | none => exact ⟨hwf, pres_refl _⟩
  | some kv =>
    obtain ⟨key, value⟩ := kv
    dsimp only
    by_cases hsk : shouldSkip value
    · simp only [hsk, if_true]
      exact ⟨hwf, pres_refl _⟩
    · simp only [hsk, if_false]
      exact addSecret_wf_pres hashFn st.2 key (String.mk (stripPy value)) hwf

theorem sanitizeLine_wf_pres (hashFn : String → String) (s : Vault) (line : List Char)
    (hwf : WF s) :
    WF (sanitizeLine hashFn s line).2 ∧ Pres s (sanitizeLine hashFn s line).2 := by
  unfold sanitizeLine
  split
  · exact ⟨hwf, pres_refl _⟩
  · exact foldl_wf_pres Prod.snd _
      (fun st pr h =>
        foldl_wf_pres Prod.snd (sanitizeMatch hashFn pr.1)
          (fun st2 m h2 => sanitizeMatch_wf_pres hashFn pr.1 st2 m h2)
          (findAll pr.2 line) st h)
      sensitivePatterns (line, s) hwf

theorem sanitizeYaml_wf_pres (hashFn : String → String) (s : Vault) (content : String)
    (hwf : WF s) :
    WF (sanitizeYamlContent hashFn s content).2 ∧
    Pres s (sanitizeYamlContent hashFn s content).2 := by
  unfold sanitizeYamlContent
  dsimp only
  exact foldl_wf_pres Prod.snd _
    (fun st l h => by
      dsimp only
      exact sanitizeLine_wf_pres hashFn st.2 l h)
    (splitOnC (Char.ofNat 10) content.data) ([], s) hwf

/-! ### Batch insertion (for the label-uniqueness claim) -/

/-- A sequence of `add_secret` calls, returning the labels in call order. -/
def addAll (hashFn : String → String) (s : Vault) :
    List (String × String) → List String × Vault
  | [] => ([], s)
  | kv :: r =>
    let p1 := addSecret hashFn s kv.1 kv.2
    let p2 := addAll hashFn p1.2 r
    (p1.1 :: p2.1, p2.2)

theorem mem_dictInsert {α : Type} (m : List (String × α)) (k : String) (v : α)
    (e : String × α) (he : e ∈ dictInsert m k v) : e ∈ m ∨ e = (k, v) := by
  unfold dictInsert at he
  split at he
  · rw [List.mem_map] at he
    obtain ⟨orig, hmem, heq⟩ := he
    by_cases hk : orig.1 = k
    · rw [if_pos hk] at heq
      exact Or.inr heq.symm
    · rw [if_neg hk] at heq
      exact Or.inl (heq ▸ hmem)
  · rcases List.mem_append.mp he with h | h
    · exact Or.inl h
    · exact Or.inr (by simpa using h)

/-- Adding a list of non-empty values whose hashes are fresh and pairwise
distinct yields labels whose sequence numbers are exactly the consecutive
block starting right after the current counter. -/
theorem addAll_seqs (hashFn : String → String) (kvs : List (String × String)) :
    ∀ s : Vault,
      (∀ kv ∈ kvs, kv.2 ≠ "") →
      (∀ kv ∈ kvs, findByHash s.mapping (hashFn kv.2) = none) →
      (kvs.map (fun kv => hashFn kv.2)).Nodup →
      (addAll hashFn s kvs).1.map seqOfLabel =
        (List.range' (s.counter + 1) kvs.length).map some ∧
      (addAll hashFn s kvs).2.counter = s.counter + kvs.length := by
  induction kvs with
  | nil => intro s _ _ _; simp [addAll]
  | cons kv r ih =>
    intro s h1 h2 h3
    have hv : kv.2 ≠ "" := h1 kv (by simp)
    have hn : findByHash s.mapping (hashFn kv.2) = none := h2 kv (by simp)
    have hnew := addSecret_new hashFn s kv.1 kv.2 hv hn
    have hlab : (addSecret hashFn s kv.1 kv.2).1 =
        "<<" ++ mkLabel s.labelPfx (detectSecretType kv.1 kv.2) (s.counter + 1) ++ ">>" := by
      rw [hnew]
    have hctr : (addSecret hashFn s kv.1 kv.2).2.counter = s.counter + 1 := by
      rw [hnew]
    have hheadne : ∀ kv2 ∈ r, hashFn kv.2 ≠ hashFn kv2.2 := by
      intro kv2 hkv2 hEq
      have hnd := h3
      rw [List.map_cons, List.nodup_cons] at hnd
      exact hnd.1 (hEq ▸ List.mem_map_of_mem _ hkv2)
    have hfresh : ∀ kv2 ∈ r,
        findByHash (addSecret hashFn s kv.1 kv.2).2.mapping (hashFn kv2.2) = none := by
      intro kv2 hkv2
      rw [hnew]
      dsimp only
      rw [findByHash_none_iff]
      intro e hme
      rcases mem_dictInsert _ _ _ e hme with hm | hm
      · exact (findByHash_none_iff s.mapping (hashFn kv2.2)).mp (h2 kv2 (by simp [hkv2])) e hm
      · rw [hm]
        dsimp only
        exact hheadne kv2 hkv2
    obtain ⟨ihseq, ihctr⟩ := ih (addSecret hashFn s kv.1 kv.2).2
      (fun kv2 h => h1 kv2 (by simp [h])) hfresh
      (by rw [List.map_cons, List.nodup_cons] at h3; exact h3.2)
    simp only [addAll]
    constructor
    · rw [List.map_cons, List.length_cons, List.range'_succ, List.map_cons]
      congr 1
      · rw [hlab, seqOfLabel_delim]
      · rw [ihseq, hctr]
    · rw [ihctr, hctr, List.length_cons]
      omega

/-! ### Restore leaves label-free text untouched -/

theorem takeWhile_append_drop {p : Char → Bool} (l : List Char) :
    l.takeWhile p ++ l.drop (l.takeWhile p).length = l := by
  induction l with
  | nil => rfl
  | cons c cs ih =>
    by_cases hc : p c
    · simp only [List.takeWhile_cons, hc, if_true, List.length_cons, List.drop_succ_cons,
        List.cons_append]
      rw [ih]
    · simp [List.takeWhile_cons, hc]

theorem isPrefixOf_exists {l1 l2 : List Char} (h : l1.isPrefixOf l2 = true) :
    ∃ t, l2 = l1 ++ t := by
  induction l1 generalizing l2 with
  | nil => exact ⟨l2, rfl⟩
  | cons a as ih =>
    cases l2 with
    | nil => simp [List.isPrefixOf] at h
    | cons b bs =>
      simp only [List.isPrefixOf, Bool.and_eq_true, beq_iff_eq] at h
      obtain ⟨t, ht⟩ := ih h.2
      exact ⟨t, by rw [List.cons_append, ← ht, h.1]⟩

/-- A successful parse consumed exactly the delimited label. -/
theorem parseDelim_eq (pfx cs label rest : List Char)
    (h : parseDelim pfx cs = some (label, rest)) :
    cs = ('<' :: '<' :: (label ++ ['>', '>'])) ++ rest := by
  unfold parseDelim at h
  split at h
  next rest0 =>
    split at h
    next hpre =>
      split at h
      next rest2 hdrop =>
        simp only [] at h
        split at h
        next hempty => exact absurd h (by simp)
        next hne =>
          split at h
          next d1 d2 d3 rest3 hdrop2 =>
            split at h
            next hdg =>
              have h1 : label = pfx ++ '_' :: (rest2.takeWhile isUpperC ++ '_' :: [d1, d2, d3]) :=
                (Prod.mk.injEq .. ▸ Option.some.inj h).1.symm
              have h2 : rest = rest3 :=
                (Prod.mk.injEq .. ▸ Option.some.inj h).2.symm
              obtain ⟨t, ht⟩ := isPrefixOf_exists hpre
              have htt : t = '_' :: rest2 := by
                rw [← hdrop, ht, List.drop_left]
              have hrest2 : rest2.takeWhile isUpperC ++ '_' :: d1 :: d2 :: d3 :: '>' :: '>' :: rest3 = rest2 := by
                conv_rhs => rw [← takeWhile_append_drop (p := isUpperC) rest2]
                rw [hdrop2]
              subst h1 h2
              rw [ht, htt, ← hrest2]
              have htw : (rest2.takeWhile isUpperC ++
                  '_' :: d1 :: d2 :: d3 :: '>' :: '>' :: rest).takeWhile isUpperC =
                  rest2.takeWhile isUpperC :=
                takeWhile_all_append _ '_' _ (fun c hc => List.mem_takeWhile_imp hc) rfl
              rw [htw]
              simp
            next => exact absurd h (by simp)
          all_goals exact absurd h (by simp)
      all_goals exact absurd h (by simp)
    next => exact absurd h (by simp)
  all_goals exact absurd h (by simp)

/-- No effective label occurs in the text: at every position, either the
restore pattern does not match, or the matched label is absent from the
secret store (or stored as the empty string, which the falsy `if secret:`
check also leaves in place). -/
def noKnownLabel (secrets : List (String × String)) (pfx : List Char) : List Char → Bool
  | [] => true
  | c :: cs =>
    (match parseDelim pfx (c :: cs) with
     | some (label, _) =>
       (match lookupD secrets (String.mk label) with
        | some v => v == ""
        | none => true)
     | none => true) && noKnownLabel secrets pfx cs

theorem noKnownLabel_tail (secrets : List (String × String)) (pfx : List Char)
    (c : Char) (cs : List Char) (h : noKnownLabel secrets pfx (c :: cs) = true) :
    noKnownLabel secrets pfx cs = true := by
  unfold noKnownLabel at h
  exact (Bool.and_eq_true _ _ |>.mp h).2

theorem noKnownLabel_drop (secrets : List (String × String)) (pfx : List Char) :
    ∀ (cs : List Char) (n : Nat), noKnownLabel secrets pfx cs = true →
      noKnownLabel secrets pfx (cs.drop n) = true := by
  intro cs
  induction cs with
  | nil => intro n h; simpa using h
  | cons c r ih =>
    intro n h
    cases n with
    | zero => exact h
    | succ m => exact ih m (noKnownLabel_tail secrets pfx c r h)

/-- If no effective label occurs, the `re.sub` scan copies the text
verbatim. -/
theorem restoreAux_id (secrets : List (String × String)) (pfx : List Char) :
    ∀ (fuel : Nat) (cs : List Char), cs.length ≤ fuel →
      noKnownLabel secrets pfx cs = true → restoreAux secrets pfx fuel cs = cs := by
  intro fuel
  induction fuel with
  | zero =>
    intro cs hlen _
    cases cs with
    | nil => rfl
    | cons c r => simp at hlen
  | succ fuel ih =>
    intro cs hlen hnk
    cases cs with
    | nil => rfl
    | cons c r =>
      cases hp : parseDelim pfx (c :: r) with
      | none =>
        have htail := noKnownLabel_tail secrets pfx c r hnk
        simp only [restoreAux, hp]
        rw [ih r (by simpa using Nat.le_of_succ_le_succ hlen) htail]
      | some pr =>
        obtain ⟨label, rest⟩ := pr
        have heq := parseDelim_eq pfx (c :: r) label rest hp
        have hknown : (match lookupD secrets (String.mk label) with
            | some v => v == ""
            | none => true) = true := by
          have := (Bool.and_eq_true _ _ |>.mp (by
            unfold noKnownLabel at hnk
            exact hnk)).1
          rw [hp] at this
          exact this
        have hrest_nk : noKnownLabel secrets pfx rest = true := by
          have : rest = (c :: r).drop ('<' :: '<' :: (label ++ ['>', '>'])).length := by
            rw [heq, List.drop_left]
          rw [this]
          exact noKnownLabel_drop secrets pfx _ _ hnk
        have hrest_len : rest.length ≤ fuel := by
          have hl := congrArg List.length heq
          simp only [List.length_cons, List.length_append, List.length_nil] at hl
          have hlen2 : r.length + 1 ≤ fuel + 1 := by simpa using hlen
          omega
        simp only [restoreAux, hp]
        cases hlk : lookupD secrets (String.mk label) with
        | none =>
          rw [ih rest hrest_len hrest_nk]
          simpa using heq.symm
        | some v =>
          rw [hlk] at hknown
          have hv : v = "" := by simpa using hknown
          rw [hv]
          simp only [if_pos rfl]
          rw [ih rest hrest_len hrest_nk]
          simpa using heq.symm

/-! ### Skipped candidates leave sanitize as the identity -/

/-- Every candidate value any pattern extracts from the line is skipped by
`should_skip`, or the line is a comment. -/
def lineAllSkipped (line : List Char) : Bool :=
  isCommentLine line ||
  sensitivePatterns.all (fun pr =>
    (findAll pr.2 line).all (fun m =>
      match extractKV pr.1 m with
      | some kv => shouldSkip kv.2
      | none => true))

/-- Every candidate value in every line of the content is skipped. -/
def allCandidatesSkipped (content : String) : Bool :=
  (splitOnC (Char.ofNat 10) content.data).all lineAllSkipped

theorem sanitizeMatch_skip (hashFn : String → String) (ptype : String)
    (st : List Char × Vault) (m : MatchRes)
    (h : (match extractKV ptype m with
          | some kv => shouldSkip kv.2
          | none => true) = true) :
    sanitizeMatch hashFn ptype st m = st := by
  unfold sanitizeMatch
  cases hkv : extractKV ptype m with
  | none => rfl
  | some kv =>
    rw [hkv] at h
    obtain ⟨key, value⟩ := kv
    dsimp only
    rw [if_pos h]

theorem foldl_fix {σ α : Type} (f : σ → α → σ) (l : List α)
    (h : ∀ a ∈ l, ∀ st, f st a = st) : ∀ st, l.foldl f st = st := by
  induction l with
  | nil => intro st; rfl
  | cons a r ih =>
    intro st
    rw [List.foldl_cons, h a (by simp) st]
    exact ih (fun b hb st2 => h b (by simp [hb]) st2) st

theorem sanitizeLine_skip (hashFn : String → String) (s : Vault) (line : List Char)
    (h : lineAllSkipped line = true) : sanitizeLine hashFn s line = (line, s) := by
  unfold sanitizeLine
  by_cases hc : isCommentLine line
  · rw [if_pos hc]
  · rw [if_neg hc]
    unfold lineAllSkipped at h
    rw [Bool.or_eq_true] at h
    rcases h with h | h
    · exact absurd h hc
    · rw [List.all_eq_true] at h
      refine foldl_fix _ _ ?_ (line, s)
      intro pr hpr st
      refine foldl_fix _ _ ?_ st
      intro m hm st2
      have := h pr hpr
      rw [List.all_eq_true] at this
      exact sanitizeMatch_skip hashFn pr.1 st2 m (this m hm)

theorem sanitizeYaml_skip (hashFn : String → String) (s : Vault) (content : String)
    (h : allCandidatesSkipped content = true) :
    sanitizeYamlContent hashFn s content = (content, s) := by
  unfold sanitizeYamlContent
  dsimp only
  unfold allCandidatesSkipped at h
  rw [List.all_eq_true] at h
  have hfold : ∀ (ls : List (List Char)) (acc : List (List Char)),
      (∀ l ∈ ls, lineAllSkipped l = true) →
      ls.foldl (fun (acc2 : List (List Char) × Vault) l =>
        ((acc2.1 ++ [(sanitizeLine hashFn acc2.2 l).1], (sanitizeLine hashFn acc2.2 l).2)))
        (acc, s) = (acc ++ ls, s) := by
    intro ls
    induction ls with
    | nil => intro acc _; simp
    | cons l r ih =>
      intro acc hall
      rw [List.foldl_cons]
      have hl := sanitizeLine_skip hashFn s l (hall l (by simp))
      rw [hl]
      dsimp only
      have := ih (acc ++ [l]) (fun x hx => hall x (by simp [hx]))
      rw [this]
      simp
  have hmain := hfold (splitOnC (Char.ofNat 10) content.data) [] h
  rw [List.nil_append] at hmain
  rw [hmain]
  rw [joinC_splitOnC]

/-! ### The claims -/

/-- Claim C1 (code bug, evaluated at the failing input): sanitizing
`"api_key: abcdef123456"` issues the label `HA_SECRET_API_KEY_001`, but the
restore pattern `<<(HA_SECRET_[A-Z]+_\d{3})>>` cannot match the underscore
inside the multi-word type `API_KEY`, so restoring the sanitized text
returns it unchanged instead of reproducing the original — the round trip
the claim asserts fails for every multi-word secret type, while the same
round trip succeeds for a single-word type such as `PASSWORD`. -/
theorem claim_C1_roundtrip_fails_for_api_key :
    (sanitizeYamlContent (fun v => v) (freshVault "HA_SECRET") "api_key: abcdef123456").1 =
      "api_key: <<HA_SECRET_API_KEY_001>>" ∧
    restoreSecretsInText
        (sanitizeYamlContent (fun v => v) (freshVault "HA_SECRET") "api_key: abcdef123456").2
        (sanitizeYamlContent (fun v => v) (freshVault "HA_SECRET") "api_key: abcdef123456").1 =
      "api_key: <<HA_SECRET_API_KEY_001>>" ∧
    restoreSecretsInText
        (sanitizeYamlContent (fun v => v) (freshVault "HA_SECRET") "api_key: abcdef123456").2
        (sanitizeYamlContent (fun v => v) (freshVault "HA_SECRET") "api_key: abcdef123456").1 ≠
      "api_key: abcdef123456" ∧
    restoreSecretsInText
        (sanitizeYamlContent (fun v => v) (freshVault "HA_SECRET") "password: abc123").2
        (sanitizeYamlContent (fun v => v) (freshVault "HA_SECRET") "password: abc123").1 =
      "password: abc123" := by
  exact ⟨by decide, by decide, by decide, by decide⟩

/-- Claim C2 (counterexample): sanitize is not idempotent.  The first pass
over `"password: abc123"` emits `password: <<HA_SECRET_PASSWORD_001>>`; on a
second pass the password pattern captures the delimited label itself as the
value group (it is not denylisted), so a fresh label is allocated and the
output changes. -/
theorem claim_C2_counterexample_second_pass_differs :
    (sanitizeYamlContent (fun v => v) (freshVault "HA_SECRET") "password: abc123").1 =
      "password: <<HA_SECRET_PASSWORD_001>>" ∧
    (sanitizeYamlContent (fun v => v)
        (sanitizeYamlContent (fun v => v) (freshVault "HA_SECRET") "password: abc123").2
        (sanitizeYamlContent (fun v => v) (freshVault "HA_SECRET") "password: abc123").1).1 =
      "password: <<HA_SECRET_PASSWORD_002>>" ∧
    (sanitizeYamlContent (fun v => v)
        (sanitizeYamlContent (fun v => v) (freshVault "HA_SECRET") "password: abc123").2
        (sanitizeYamlContent (fun v => v) (freshVault "HA_SECRET") "password: abc123").1).1 ≠
      (sanitizeYamlContent (fun v => v) (freshVault "HA_SECRET") "password: abc123").1 := by
  exact ⟨by decide, by decide, by decide⟩

/-- Claim C2 (amended): sanitize is idempotent only on text whose sanitized
form no longer matches any pattern with a non-skipped value — e.g. output of
the value-only `email` pattern, whose label next to its key re-matches
nothing; for the key-value patterns the emitted label is re-captured as the
value group and each further pass allocates a fresh label. -/
theorem claim_C2_amended_second_pass_noop_without_kv_rematch :
    sanitizeYamlContent (fun v => v)
        (sanitizeYamlContent (fun v => v) (freshVault "HA_SECRET") "server: admin@foo.com").2
        (sanitizeYamlContent (fun v => v) (freshVault "HA_SECRET") "server: admin@foo.com").1 =
      sanitizeYamlContent (fun v => v) (freshVault "HA_SECRET") "server: admin@foo.com" ∧
    (sanitizeYamlContent (fun v => v) (freshVault "HA_SECRET") "server: admin@foo.com").1 =
      "server: <<HA_SECRET_EMAIL_001>>" := by
  exact ⟨by decide, by decide⟩

/-- Claim C3: idempotent insertion.  For any well-formed vault and any
non-empty value whose hash is not yet stored, a second `add_secret` with the
same value (any key) returns the same delimited label, leaves the state of
the first call untouched (in particular the counter is not incremented
again), and across the two calls the entry count rises by exactly 1. -/
theorem claim_C3_idempotent_insertion (hashFn : String → String) (s : Vault)
    (k1 k2 v : String) (hwf : WF s) (hv : v ≠ "")
    (hfresh : findByHash s.mapping (hashFn v) = none) :
    (addSecret hashFn (addSecret hashFn s k1 v).2 k2 v).1 = (addSecret hashFn s k1 v).1 ∧
    (addSecret hashFn (addSecret hashFn s k1 v).2 k2 v).2 = (addSecret hashFn s k1 v).2 ∧
    (addSecret hashFn s k1 v).2.mapping.length = s.mapping.length + 1 ∧
    (addSecret hashFn s k1 v).2.counter = s.counter + 1 := by
  have hnew := addSecret_new hashFn s k1 v hv hfresh
  have hfr := mkLabel_fresh s (detectSecretType k1 v) hwf
  have hmap : (addSecret hashFn s k1 v).2.mapping =
      s.mapping ++ [(mkLabel s.labelPfx (detectSecretType k1 v) (s.counter + 1),
        ⟨detectSecretType k1 v, k1, "Secret from " ++ k1, hashFn v⟩)] := by
    rw [hnew]
    dsimp only
    rw [dictInsert_fresh _ _ _ hfr.2]
  have hfind2 : findByHash (addSecret hashFn s k1 v).2.mapping (hashFn v) =
      some (mkLabel s.labelPfx (detectSecretType k1 v) (s.counter + 1)) := by
    rw [hmap, findByHash_append _ _ _ hfresh]
    simp [findByHash]
  have hded := addSecret_dedup hashFn (addSecret hashFn s k1 v).2 k2 v
    (mkLabel s.labelPfx (detectSecretType k1 v) (s.counter + 1)) hv hfind2
  refine ⟨?_, ?_, ?_, ?_⟩
  · rw [hded, hnew]
  · rw [hded]
  · rw [hmap, List.length_append]
    rfl
  · rw [hnew]

/-- Witness for C3 at concrete inputs. -/
theorem claim_C3_witness :
    (addSecret (fun v => v)
        (addSecret (fun v => v) (freshVault "HA_SECRET") "db_password" "hunter22").2
        "other_key" "hunter22").1 =
      (addSecret (fun v => v) (freshVault "HA_SECRET") "db_password" "hunter22").1 ∧
    (addSecret (fun v => v)
        (addSecret (fun v => v) (freshVault "HA_SECRET") "db_password" "hunter22").2
        "other_key" "hunter22").2 =
      (addSecret (fun v => v) (freshVault "HA_SECRET") "db_password" "hunter22").2 ∧
    (addSecret (fun v => v) (freshVault "HA_SECRET") "db_password" "hunter22").2.mapping.length =
      (freshVault "HA_SECRET").mapping.length + 1 ∧
    (addSecret (fun v => v) (freshVault "HA_SECRET") "db_password" "hunter22").2.counter =
      (freshVault "HA_SECRET").counter + 1 :=
  claim_C3_idempotent_insertion (fun v => v) (freshVault "HA_SECRET")
    "db_password" "other_key" "hunter22" (wf_freshVault _) (by decide) (by decide)

/-- Claim C4 (counterexample): `add_secret` does NOT reject values shorter
than 3 characters — the 2-character value `"ab"` is hashed, typed and stored
under a fresh label, and the state changes.  Only empty values are returned
unchanged. -/
theorem claim_C4_counterexample_short_value_stored :
    (addSecret (fun v => v) (freshVault "HA_SECRET") "k" "ab").1 =
      "<<HA_SECRET_SECRET_001>>" ∧
    (addSecret (fun v => v) (freshVault "HA_SECRET") "k" "ab").1 ≠ "ab" ∧
    (addSecret (fun v => v) (freshVault "HA_SECRET") "k" "ab").2 ≠ freshVault "HA_SECRET" := by
  exact ⟨by decide, by decide, by decide⟩

/-- Claim C4 (amended): `add_secret` returns the value unchanged with the
vault untouched exactly for the empty value (`if not value`); the 3-character
minimum lives only in `SecretsSanitizer.should_skip`, not in `add_secret`. -/
theorem claim_C4_amended_only_empty_rejected (hashFn : String → String)
    (s : Vault) (k : String) : addSecret hashFn s k "" = ("", s) := by
  simp [addSecret]

/-- Claim C5 (code bug, evaluated at the failing input): after `save()` in
base64 fallback mode (`cryptography` unavailable), a fresh vault constructed
over the same files resumes the counter correctly but never reads the
secrets file back (`_load_existing` requires `self._fernet`), so previously
issued labels no longer resolve and restore leaves their placeholders in
place; with crypto available the same save/load round trip reproduces the
vault exactly. -/
theorem claim_C5_fallback_load_loses_secrets :
    getSecret (addSecret (fun v => v) (freshVault "HA_SECRET") "db_password" "hunter22").2
        "<<HA_SECRET_PASSWORD_001>>" = some "hunter22" ∧
    loadExisting true "HA_SECRET"
        (.ok (save (addSecret (fun v => v) (freshVault "HA_SECRET") "db_password" "hunter22").2).mappingData)
        (.ok (save (addSecret (fun v => v) (freshVault "HA_SECRET") "db_password" "hunter22").2).secretsData) =
      (addSecret (fun v => v) (freshVault "HA_SECRET") "db_password" "hunter22").2 ∧
    getSecret (loadExisting false "HA_SECRET"
        (.ok (save (addSecret (fun v => v) (freshVault "HA_SECRET") "db_password" "hunter22").2).mappingData)
        (.ok (save (addSecret (fun v => v) (freshVault "HA_SECRET") "db_password" "hunter22").2).secretsData))
        "<<HA_SECRET_PASSWORD_001>>" = none ∧
    (loadExisting false "HA_SECRET"
        (.ok (save (addSecret (fun v => v) (freshVault "HA_SECRET") "db_password" "hunter22").2).mappingData)
        (.ok (save (addSecret (fun v => v) (freshVault "HA_SECRET") "db_password" "hunter22").2).secretsData)).counter = 1 ∧
    restoreSecretsInText (loadExisting false "HA_SECRET"
        (.ok (save (addSecret (fun v => v) (freshVault "HA_SECRET") "db_password" "hunter22").2).mappingData)
        (.ok (save (addSecret (fun v => v) (freshVault "HA_SECRET") "db_password" "hunter22").2).secretsData))
        "password: <<HA_SECRET_PASSWORD_001>>" = "password: <<HA_SECRET_PASSWORD_001>>" := by
  exact ⟨by decide, by decide, by decide, by decide, by decide⟩

/-- Claim C6: restore is total by construction in this embedding (a pure
function), and on any text in which no well-formed delimited label of the
vault's own prefix resolves to a non-empty stored secret — in particular
texts containing only unknown labels, labels of other vaults, multi-word
`<<...>>` spans not matched by the pattern, or arbitrary junk — it returns
the input byte-for-byte unchanged. -/
theorem claim_C6_restore_unknown_and_malformed_untouched (s : Vault) (text : String)
    (h : noKnownLabel s.secrets s.labelPfx.data text.data = true) :
    restoreSecretsInText s text = text := by
  unfold restoreSecretsInText
  rw [restoreAux_id s.secrets s.labelPfx.data text.data.length text.data le_rfl h]

/-- Witness for C6: a vault holding `HA_SECRET_TOKEN_001`, restoring a text
with an unknown label, a malformed (multi-word-type) label and junk. -/
theorem claim_C6_witness :
    noKnownLabel
        (addSecret (fun v => v) (freshVault "HA_SECRET") "api_token" "tok12345").2.secrets
        (addSecret (fun v => v) (freshVault "HA_SECRET") "api_token" "tok12345").2.labelPfx.data
        "token: <<HA_SECRET_TOKEN_999>> <<HA_SECRET_API_KEY_001>> <<bad>>".data = true ∧
    restoreSecretsInText
        (addSecret (fun v => v) (freshVault "HA_SECRET") "api_token" "tok12345").2
        "token: <<HA_SECRET_TOKEN_999>> <<HA_SECRET_API_KEY_001>> <<bad>>" =
      "token: <<HA_SECRET_TOKEN_999>> <<HA_SECRET_API_KEY_001>> <<bad>>" :=
  ⟨by decide,
   claim_C6_restore_unknown_and_malformed_untouched
     (addSecret (fun v => v) (freshVault "HA_SECRET") "api_token" "tok12345").2
     "token: <<HA_SECRET_TOKEN_999>> <<HA_SECRET_API_KEY_001>> <<bad>>" (by decide)⟩

/-- Claim C7: the skip policy.  When every candidate value extracted by the
pattern catalogue is skipped by `should_skip` (empty, shorter than 3
characters, or containing a denylisted substring case-insensitively) — and
on comment lines, which are never scanned — `sanitize_yaml_content` returns
the content unchanged and creates no vault entry. -/
theorem claim_C7_skip_policy (hashFn : String → String) (s : Vault) (content : String)
    (h : allCandidatesSkipped content = true) :
    sanitizeYamlContent hashFn s content = (content, s) :=
  sanitizeYaml_skip hashFn s content h

/-- Witness for C7 at the spec's concrete examples: a denylisted value and a
2-character value stay in place and the vault is untouched. -/
theorem claim_C7_witness :
    allCandidatesSkipped "password: example_value\npassword: ab" = true ∧
    sanitizeYamlContent (fun v => v) (freshVault "HA_SECRET")
        "password: example_value\npassword: ab" =
      ("password: example_value\npassword: ab", freshVault "HA_SECRET") :=
  ⟨by decide,
   claim_C7_skip_policy (fun v => v) (freshVault "HA_SECRET")
     "password: example_value\npassword: ab" (by decide)⟩

/-- Claim C8: label uniqueness and monotone sequence.  Starting from a fresh
vault, adding N pairwise-distinct non-empty values (under a collision-free
digest) yields N labels whose recoverable sequence numbers are exactly
1, 2, …, N — zero-padded by `mkLabel`, strictly increasing in call order,
shared across all types, starting at 1 and never reused — hence the labels
are pairwise distinct, and the final counter is N. -/
theorem claim_C8_label_uniqueness (hashFn : String → String)
    (hinj : Function.Injective hashFn) (kvs : List (String × String))
    (hne : ∀ kv ∈ kvs, kv.2 ≠ "") (hnd : (kvs.map Prod.snd).Nodup) :
    (addAll hashFn (freshVault "HA_SECRET") kvs).1.map seqOfLabel =
      (List.range' 1 kvs.length).map some ∧
    (addAll hashFn (freshVault "HA_SECRET") kvs).1.Nodup ∧
    (addAll hashFn (freshVault "HA_SECRET") kvs).2.counter = kvs.length := by
  have h2 : ∀ kv ∈ kvs, findByHash (freshVault "HA_SECRET").mapping (hashFn kv.2) = none :=
    fun kv _ => rfl
  have h3 : (kvs.map (fun kv => hashFn kv.2)).Nodup := by
    have hcomp : kvs.map (fun kv => hashFn kv.2) = (kvs.map Prod.snd).map hashFn := by
      rw [List.map_map]
      rfl
    rw [hcomp]
    exact hnd.map hinj
  obtain ⟨hseq, hctr⟩ := addAll_seqs hashFn kvs (freshVault "HA_SECRET") hne h2 h3
  have hseq1 : (addAll hashFn (freshVault "HA_SECRET") kvs).1.map seqOfLabel =
      (List.range' 1 kvs.length).map some := by
    simpa [freshVault] using hseq
  refine ⟨hseq1, ?_, by simpa [freshVault] using hctr⟩
  have hnd2 : ((addAll hashFn (freshVault "HA_SECRET") kvs).1.map seqOfLabel).Nodup := by
    rw [hseq1]
    exact (List.nodup_range' 1 kvs.length).map (Option.some_injective Nat)
  exact List.Nodup.of_map seqOfLabel hnd2

/-- Witness for C8 at three concrete distinct values. -/
theorem claim_C8_witness :
    (addAll (fun v => v) (freshVault "HA_SECRET")
        [("db_password", "hunter22"), ("api_token", "tok12"), ("home_lat", "52.52")]).1.map
        seqOfLabel =
      (List.range' 1
        ([("db_password", "hunter22"), ("api_token", "tok12"), ("home_lat", "52.52")] :
          List (String × String)).length).map some ∧
    (addAll (fun v => v) (freshVault "HA_SECRET")
        [("db_password", "hunter22"), ("api_token", "tok12"), ("home_lat", "52.52")]).1.Nodup ∧
    (addAll (fun v => v) (freshVault "HA_SECRET")
        [("db_password", "hunter22"), ("api_token", "tok12"), ("home_lat", "52.52")]).2.counter =
      ([("db_password", "hunter22"), ("api_token", "tok12"), ("home_lat", "52.52")] :
        List (String × String)).length :=
  claim_C8_label_uniqueness (fun v => v) (fun _ _ hab => hab)
    [("db_password", "hunter22"), ("api_token", "tok12"), ("home_lat", "52.52")]
    (by decide) (by decide)

/-- Claim C9: type inference priority.  A keyword hit on the source key wins
regardless of the value (`db_password` maps to PASSWORD even for an
IP-shaped value; `home_lat` maps to LATITUDE via the `lat` keyword); when no
keyword matches, the structural value patterns fire in order (dotted
three-part token → TOKEN, 32+ hex chars → API_KEY, dotted quad → IP_ADDRESS,
`@` and `.` → EMAIL), and otherwise the fallback SECRET; the labels
`add_secret` returns for the spec's two scenarios contain PASSWORD and
LATITUDE respectively. -/
theorem claim_C9_type_inference_priority :
    (∀ v : String, detectSecretType "db_password" v = "PASSWORD") ∧
    detectSecretType "home_lat" "52.52" = "LATITUDE" ∧
    detectSecretType "home_lat" "10.0.0.1" = "LATITUDE" ∧
    containsSub "PASSWORD".data
      (addSecret (fun v => v) (freshVault "HA_SECRET") "db_password" "Sup3rSecret!").1.data = true ∧
    containsSub "LATITUDE".data
      (addSecret (fun v => v) (freshVault "HA_SECRET") "home_lat" "52.52").1.data = true ∧
    detectSecretType "zz" "a.b.c" = "TOKEN" ∧
    detectSecretType "zz" "0123456789abcdef0123456789abcdef" = "API_KEY" ∧
    detectSecretType "zz" "10.0.0.1" = "IP_ADDRESS" ∧
    detectSecretType "zz" "a@b.c" = "EMAIL" ∧
    detectSecretType "zz" "plainvalue" = "SECRET" := by
  refine ⟨?_, by decide, by decide, by decide, by decide, by decide, by decide, by decide,
    by decide, by decide⟩
  intro v
  have hkw : keywordType (lowerL "db_password".data) typePatterns = some "PASSWORD" := by decide
  simp [detectSecretType, hkw]

/-- Witness for C9: the keyword branch of the theorem applied at a concrete
value whose structure would otherwise classify as IP_ADDRESS. -/
theorem claim_C9_witness :
    detectSecretType "db_password" "10.0.0.1" = "PASSWORD" :=
  claim_C9_type_inference_priority.1 "10.0.0.1"

/-- Claim C10: append-only vault / frame.  In this embedding
`restore_secrets_in_text` is a pure function `Vault → String → String` and
cannot modify the vault by construction; for `add_secret` and
`sanitize_yaml_content`, starting from any well-formed state, the counter
never decreases and every previously issued label still resolves to its
original value and metadata afterwards. -/
theorem claim_C10_append_only_frame (hashFn : String → String) (s : Vault) (hwf : WF s) :
    (∀ k v : String,
      s.counter ≤ (addSecret hashFn s k v).2.counter ∧
      (∀ l w, lookupD s.secrets l = some w →
        lookupD (addSecret hashFn s k v).2.secrets l = some w) ∧
      (∀ l m, lookupD s.mapping l = some m →
        lookupD (addSecret hashFn s k v).2.mapping l = some m)) ∧
    (∀ content : String,
      s.counter ≤ (sanitizeYamlContent hashFn s content).2.counter ∧
      (∀ l w, lookupD s.secrets l = some w →
        lookupD (sanitizeYamlContent hashFn s content).2.secrets l = some w) ∧
      (∀ l m, lookupD s.mapping l = some m →
        lookupD (sanitizeYamlContent hashFn s content).2.mapping l = some m)) := by
  constructor
  · intro k v
    obtain ⟨-, hpres⟩ := addSecret_wf_pres hashFn s k v hwf
    exact ⟨hpres.2.1, hpres.2.2.1, hpres.2.2.2⟩
  · intro content
    obtain ⟨-, hpres⟩ := sanitizeYaml_wf_pres hashFn s content hwf
    exact ⟨hpres.2.1, hpres.2.2.1, hpres.2.2.2⟩

/-- Witness for C10: after sanitizing fresh content over a vault already
holding `HA_SECRET_PASSWORD_001 → hunter22`, the old label still resolves to
the same value and the counter has not decreased. -/
theorem claim_C10_witness :
    (addSecret (fun v => v) (freshVault "HA_SECRET") "db_password" "hunter22").2.counter ≤
      (sanitizeYamlContent (fun v => v)
        (addSecret (fun v => v) (freshVault "HA_SECRET") "db_password" "hunter22").2
        "token: freshtok99").2.counter ∧
    lookupD (sanitizeYamlContent (fun v => v)
        (addSecret (fun v => v) (freshVault "HA_SECRET") "db_password" "hunter22").2
        "token: freshtok99").2.secrets "HA_SECRET_PASSWORD_001" = some "hunter22" :=
  ⟨((claim_C10_append_only_frame (fun v => v)
      (addSecret (fun v => v) (freshVault "HA_SECRET") "db_password" "hunter22").2
      ((addSecret_wf_pres (fun v => v) (freshVault "HA_SECRET") "db_password" "hunter22"
        (wf_freshVault "HA_SECRET")).1)).2 "token: freshtok99").1,
   ((claim_C10_append_only_frame (fun v => v)
      (addSecret (fun v => v) (freshVault "HA_SECRET") "db_password" "hunter22").2
      ((addSecret_wf_pres (fun v => v) (freshVault "HA_SECRET") "db_password" "hunter22"
        (wf_freshVault "HA_SECRET")).1)).2 "token: freshtok99").2.1
     "HA_SECRET_PASSWORD_001" "hunter22" (by decide)⟩

end SecretsMgr
